import Mathlib

/-!
Verification of the `SeatQueue` class from `src/react_assignment.tsx`
(lines 127–166): a FIFO queue of seat identifiers implemented as a
singly linked list with `head`/`tail` pointers and a stored `size`.

The embedding is pointer-level: nodes live in an explicit store
(`nodes : List ListNode`), a pointer is an optional index into the
store, and each operation returns the updated queue.  The TypeScript
non-null assertion `this.tail!.next = newNode` and the dereference
`this.head.seatId` are modelled by `Option`-valued operations: `none`
is the state in which the original program would throw a `TypeError`
(dereferencing a null or dangling pointer).  We prove such states are
unreachable.

The queue is then related to its abstract model, a `List String`, by
the representation predicate `ReprQ`, and every claim is settled
through that refinement.
-/

/-- One node of the singly linked list (`class ListNode`): a seat
identifier and a pointer (optional store index) to the next node.
The constructor `new ListNode(seatId)` sets `next = null`. -/
structure ListNode where
  seatId : String
  next : Option Nat
deriving DecidableEq

/-- The queue state (`class SeatQueue`): the node store together with
the `head` and `tail` pointers and the stored `size` counter.  `size`
is an `Int` because the TypeScript field is a `number` that the code
freely decrements. -/
structure SeatQueue where
  nodes : List ListNode
  head : Option Nat
  tail : Option Nat
  size : Int
deriving DecidableEq

/-- A freshly constructed `new SeatQueue()`: all fields at their
initializers (`head = null`, `tail = null`, `size = 0`). -/
def SeatQueue.empty : SeatQueue :=
  { nodes := [], head := none, tail := none, size := 0 }

/-- `addSeat(seatId)`.  Allocates `new ListNode(seatId)` (appended to
the store at index `nodes.length`).  If `head` is null the new node
becomes both `head` and `tail`; otherwise `tail!.next = newNode` and
`tail` advances.  `size++`.  Returns `none` exactly where the
TypeScript would throw: `tail` null or dangling while `head` is
non-null (proved unreachable below). -/
def SeatQueue.addSeat (q : SeatQueue) (seatId : String) : Option SeatQueue :=
  let newId := q.nodes.length
  let newNode : ListNode := { seatId := seatId, next := none }
  match q.head with
  | none =>
      some { nodes := q.nodes ++ [newNode],
             head := some newId, tail := some newId, size := q.size + 1 }
  | some _ =>
      match q.tail with
      | none => none
      | some t =>
          match q.nodes[t]? with
          | none => none
          | some tn =>
              some { nodes := q.nodes.set t { tn with next := some newId } ++ [newNode],
                     head := q.head, tail := some newId, size := q.size + 1 }

/-- `reserveSeat()`.  If `head` is null, returns `null` and leaves the
state untouched.  Otherwise reads `head.seatId`, advances `head` to
`head.next`, nulls `tail` if the queue became empty, does `size--`,
and returns the seat identifier.  `none` marks a dangling `head`
pointer (unreachable). -/
def SeatQueue.reserveSeat (q : SeatQueue) : Option (Option String × SeatQueue) :=
  match q.head with
  | none => some (none, q)
  | some h =>
      match q.nodes[h]? with
      | none => none
      | some hn =>
          some (some hn.seatId,
            { q with head := hn.next,
                     tail := if hn.next = none then none else q.tail,
                     size := q.size - 1 })

/-- `getAvailableCount()`: returns the stored `size` field. -/
def SeatQueue.getAvailableCount (q : SeatQueue) : Int :=
  q.size

/-- One call against the queue: `addSeat s` or `reserveSeat`. -/
inductive Op where
  | add (seatId : String)
  | reserve
deriving DecidableEq

/-- Run a sequence of calls from a given state, collecting the result
of every `reserveSeat` call in order.  `none` propagates a would-be
runtime fault. -/
def runAux : SeatQueue → List Op → Option (SeatQueue × List (Option String))
  | q, [] => some (q, [])
  | q, Op.add s :: rest => (q.addSeat s).bind fun q2 => runAux q2 rest
  | q, Op.reserve :: rest =>
      q.reserveSeat.bind fun rq =>
        (runAux rq.2 rest).map fun fin => (fin.1, rq.1 :: fin.2)

/-- Run a sequence of calls on a freshly constructed queue. -/
def run (ops : List Op) : Option (SeatQueue × List (Option String)) :=
  runAux SeatQueue.empty ops

/-- The abstract model: the same operation sequence interpreted over a
plain `List String` (append at the back, pop at the front), returning
the final list and the collected `reserve` results. -/
def modelRun : List String → List Op → List String × List (Option String)
  | l, [] => (l, [])
  | l, Op.add s :: rest => modelRun (l ++ [s]) rest
  | l, Op.reserve :: rest =>
      ((modelRun l.tail rest).1, l.head? :: (modelRun l.tail rest).2)

/-- `isChain nodes p is` states that starting from pointer `p` and
repeatedly following `next` inside `nodes` visits exactly the store
indices `is`, ending at a null pointer. -/
def isChain (nodes : List ListNode) : Option Nat → List Nat → Prop
  | p, [] => p = none
  | p, i :: rest =>
      p = some i ∧ ∃ nd, nodes[i]? = some nd ∧ isChain nodes nd.next rest

/-- Seat identifier stored at index `i` (default `""` off the store;
never exercised on valid chains). -/
def seatAt (nodes : List ListNode) (i : Nat) : String :=
  (nodes[i]?.map ListNode.seatId).getD ""

/-- Representation predicate: queue state `q` is a valid linked-list
representation of the abstract seat list `l`.  The witnessing chain
`is` starts at `head`, ends at `tail`, has `size` elements, visits no
index twice (no cycles), and spells out `l`. -/
def ReprQ (q : SeatQueue) (l : List String) : Prop :=
  ∃ is : List Nat,
    isChain q.nodes q.head is ∧
    q.tail = is.getLast? ∧
    q.size = (is.length : Int) ∧
    is.Nodup ∧
    l = is.map (seatAt q.nodes)

/-! ### Chain lemmas -/

/-- The start pointer of a chain is the first visited index (or null). -/
theorem chain_head {nodes : List ListNode} {p : Option Nat} {is : List Nat}
    (h : isChain nodes p is) : p = is.head? := by
  cases is with
  | nil => exact h
  | cons i rest => exact h.1

/-- Every index visited by a chain is a valid store index. -/
theorem chain_mem_lt {nodes : List ListNode} {p : Option Nat} {is : List Nat}
    (h : isChain nodes p is) : ∀ i ∈ is, i < nodes.length := by
  induction is generalizing p with
  | nil => intro i hi; cases hi
  | cons j rest ih =>
    intro i hi
    obtain ⟨hp, nd, hnd, hrest⟩ := h
    rcases List.mem_cons.1 hi with h1 | h2
    · subst h1
      by_contra hlt
      push_neg at hlt
      rw [List.getElem?_eq_none hlt] at hnd
      cases hnd
    · exact ih hrest i h2

/-- The last index of a chain holds a node whose `next` is null. -/
theorem chain_last_next {nodes : List ListNode} {p : Option Nat} {is : List Nat} {t : Nat}
    (h : isChain nodes p is) (hl : is.getLast? = some t) :
    ∃ nd, nodes[t]? = some nd ∧ nd.next = none := by
  induction is generalizing p with
  | nil => simp at hl
  | cons j rest ih =>
    obtain ⟨hp, nd, hnd, hrest⟩ := h
    cases rest with
    | nil =>
      simp only [List.getLast?_singleton, Option.some.injEq] at hl
      subst hl
      exact ⟨nd, hnd, hrest⟩
    | cons k rest2 =>
      rw [List.getLast?_cons_cons] at hl
      exact ih hrest hl

/-- Extending a chain: rewriting the last node's `next` to point at a
freshly appended node (at index `nodes.length`) extends the visited
index list by that index. -/
theorem chain_extend {nodes : List ListNode} {t : Nat} {tn : ListNode} {s : String}
    (htn : nodes[t]? = some tn) {p : Option Nat} {is : List Nat}
    (hc : isChain nodes p is) (hnd : is.Nodup) (hl : is.getLast? = some t) :
    isChain (nodes.set t { tn with next := some nodes.length } ++
      [{ seatId := s, next := none }]) p (is ++ [nodes.length]) := by
  have htlt : t < nodes.length := by
    by_contra hge
    push_neg at hge
    rw [List.getElem?_eq_none hge] at htn
    cases htn
  induction is generalizing p with
  | nil => simp at hl
  | cons j rest ih =>
    obtain ⟨hp, nd, hnd2, hrest⟩ := hc
    cases rest with
    | nil =>
      simp only [List.getLast?_singleton, Option.some.injEq] at hl
      subst hl
      have hndtn : nd = tn := by
        rw [htn] at hnd2
        exact (Option.some.injEq _ _ ▸ hnd2).symm
      refine ⟨hp, { tn with next := some nodes.length }, ?_, rfl,
        { seatId := s, next := none }, ?_, rfl⟩
      · rw [List.getElem?_append]
        simp [List.length_set, htlt, List.getElem?_set_self htlt]
      · have hcat := List.getElem?_concat_length
          (nodes.set j { tn with next := some nodes.length })
          ({ seatId := s, next := none } : ListNode)
        rw [List.length_set] at hcat
        exact hcat
    | cons k rest2 =>
      rw [List.getLast?_cons_cons] at hl
      have htmem : t ∈ k :: rest2 := by
        obtain ⟨hne, heq⟩ := List.mem_getLast?_eq_getLast (l := k :: rest2) (x := t) hl
        rw [heq]
        exact List.getLast_mem hne
      have hjne : t ≠ j := by
        intro hEq
        subst hEq
        exact (List.nodup_cons.1 hnd).1 htmem
      have hjlt : j < nodes.length := by
        by_contra hge
        push_neg at hge
        rw [List.getElem?_eq_none hge] at hnd2
        cases hnd2
      refine ⟨hp, nd, ?_, ?_⟩
      · rw [List.getElem?_append]
        simp only [List.length_set, hjlt, if_pos]
        rw [List.getElem?_set_ne hjne]
        exact hnd2
      · exact ih hrest (List.nodup_cons.1 hnd).2 hl

/-- Rewriting one node's `next` field and appending fresh nodes never
changes the seat identifier stored at a valid index. -/
theorem seatAt_preserved {nodes : List ListNode} {t : Nat} {tn nw : ListNode}
    {nx : Option Nat} (htn : nodes[t]? = some tn) {i : Nat} (hi : i < nodes.length) :
    seatAt (nodes.set t { tn with next := nx } ++ [nw]) i = seatAt nodes i := by
  unfold seatAt
  have hi2 : i < (nodes.set t { tn with next := nx }).length := by
    rw [List.length_set]; exact hi
  rw [List.getElem?_append]
  simp only [List.length_set, hi, if_pos]
  by_cases hEq : i = t
  · subst hEq
    rw [List.getElem?_set_self hi, htn]
    simp
  · rw [List.getElem?_set_ne (fun hx => hEq hx.symm)]

/-- Full behaviour of `addSeat` on a valid queue state: it succeeds,
the new state represents the list with the identifier appended, `size`
went up by one, the fresh record (holding the identifier, with null
`next`) is the new `tail`; an empty queue gets the fresh record as
`head` too, and a non-empty queue keeps its `head` and links the fresh
record after the old `tail`. -/
theorem addSeat_spec {q : SeatQueue} {l : List String} (h : ReprQ q l) (s : String) :
    ∃ q2, q.addSeat s = some q2 ∧ ReprQ q2 (l ++ [s]) ∧
      q2.size = q.size + 1 ∧
      q2.tail = some q.nodes.length ∧
      q2.nodes[q.nodes.length]? = some { seatId := s, next := none } ∧
      (q.head = none → q2.head = some q.nodes.length) ∧
      (∀ hh, q.head = some hh → q2.head = some hh ∧
        ∃ t tn, q.tail = some t ∧ q.nodes[t]? = some tn ∧ tn.next = none ∧
          q2.nodes[t]? = some { seatId := tn.seatId, next := some q.nodes.length }) := by
  obtain ⟨is, hc, ht, hs, hnd, hl⟩ := h
  cases is with
  | nil =>
    have hh : q.head = none := chain_head hc
    have htail : q.tail = none := by rw [ht]; rfl
    refine ⟨{ nodes := q.nodes ++ [{ seatId := s, next := none }],
              head := some q.nodes.length, tail := some q.nodes.length,
              size := q.size + 1 }, ?_, ?_, rfl, rfl, ?_, fun _ => rfl, ?_⟩
    · simp [SeatQueue.addSeat, hh]
    · refine ⟨[q.nodes.length], ⟨rfl, { seatId := s, next := none },
        List.getElem?_concat_length .., rfl⟩, rfl, ?_, by simp, ?_⟩
      · simp [hs]
      · have : seatAt (q.nodes ++ [{ seatId := s, next := none }]) q.nodes.length = s := by
          unfold seatAt
          rw [List.getElem?_concat_length]
          rfl
        simp only [List.map_cons, List.map_nil, this]
        rw [hl]
        rfl
    · exact List.getElem?_concat_length ..
    · intro hh2 hcontra
      rw [hh] at hcontra
      cases hcontra
  | cons j rest =>
    have hh : q.head = some j := chain_head hc
    obtain ⟨t, ht2⟩ : ∃ t, (j :: rest).getLast? = some t := by
      cases rest with
      | nil => exact ⟨j, rfl⟩
      | cons k rest2 =>
        rw [List.getLast?_cons_cons]
        exact ⟨(k :: rest2).getLast (List.cons_ne_nil k rest2),
          List.getLast?_eq_getLast _ (List.cons_ne_nil k rest2)⟩
    have htail : q.tail = some t := by rw [ht, ht2]
    obtain ⟨tn, htn, htnx⟩ := chain_last_next hc ht2
    have hmem := chain_mem_lt hc
    have htlt : t < q.nodes.length := by
      obtain ⟨hne, heq⟩ := List.mem_getLast?_eq_getLast (l := j :: rest) (x := t) ht2
      exact hmem t (heq ▸ List.getLast_mem hne)
    refine ⟨{ nodes := q.nodes.set t { tn with next := some q.nodes.length } ++
                [{ seatId := s, next := none }],
              head := q.head, tail := some q.nodes.length,
              size := q.size + 1 }, ?_, ?_, rfl, rfl, ?_, ?_, ?_⟩
    · simp [SeatQueue.addSeat, hh, htail, htn]
    · refine ⟨(j :: rest) ++ [q.nodes.length],
        chain_extend htn hc hnd ht2, (List.getLast?_concat _).symm, ?_, ?_, ?_⟩
      · simp [hs]
      · rw [List.nodup_append]
        refine ⟨hnd, List.nodup_singleton _, ?_⟩
        intro x hx hx2
        rw [List.mem_singleton.1 hx2] at hx
        exact absurd (hmem _ hx) (lt_irrefl _)
      · rw [List.map_append]
        congr 1
        · rw [hl]
          exact (List.map_congr_left
            fun i hi => seatAt_preserved htn (hmem i hi)).symm
        · have : seatAt (q.nodes.set t { tn with next := some q.nodes.length } ++
              [{ seatId := s, next := none }]) q.nodes.length = s := by
            unfold seatAt
            have hcat := List.getElem?_concat_length
              (q.nodes.set t { tn with next := some q.nodes.length })
              ({ seatId := s, next := none } : ListNode)
            rw [List.length_set] at hcat
            rw [hcat]
            rfl
          simp [this]
    · have hcat := List.getElem?_concat_length
        (q.nodes.set t { tn with next := some q.nodes.length })
        ({ seatId := s, next := none } : ListNode)
      rw [List.length_set] at hcat
      exact hcat
    · intro hcontra
      rw [hh] at hcontra
      cases hcontra
    · intro hh2 hsome
      refine ⟨hsome, t, tn, htail, htn, htnx, ?_⟩
      rw [List.getElem?_append]
      simp only [List.length_set, htlt, if_pos]
      rw [List.getElem?_set_self htlt]

/-- Full behaviour of `reserveSeat` on a valid queue state: it
succeeds, returning the front of the abstract list (the
empty-indicator `none` when the list is empty), and the new state
represents the rest of the list.  On an empty queue the state is
returned literally unchanged. -/
theorem reserveSeat_spec {q : SeatQueue} {l : List String} (h : ReprQ q l) :
    ∃ q2, q.reserveSeat = some (l.head?, q2) ∧ ReprQ q2 l.tail ∧
      (l = [] → q2 = q) ∧ (l ≠ [] → q2.size = q.size - 1) := by
  obtain ⟨is, hc, ht, hs, hnd, hl⟩ := h
  cases is with
  | nil =>
    have hh : q.head = none := chain_head hc
    have hlnil : l = [] := by rw [hl]; rfl
    refine ⟨q, ?_, ?_, fun _ => rfl, fun hne => absurd hlnil hne⟩
    · simp [SeatQueue.reserveSeat, hh, hlnil]
    · rw [hlnil]
      exact ⟨[], hc.symm ▸ hh ▸ (by rw [hh]; rfl), ht, hs, hnd, rfl⟩
  | cons j rest =>
    obtain ⟨hp, nd, hnd2, hrest⟩ := hc
    have hh : q.head = some j := hp
    have hlcons : l = seatAt q.nodes j :: rest.map (seatAt q.nodes) := by
      rw [hl]; rfl
    have hseat : seatAt q.nodes j = nd.seatId := by
      unfold seatAt
      rw [hnd2]
      rfl
    refine ⟨{ q with
              head := nd.next
              tail := (if nd.next = none then none else q.tail)
              size := q.size - 1 }, ?_, ?_, ?_, fun _ => rfl⟩
    · rw [hlcons]
      simp [SeatQueue.reserveSeat, hh, hnd2, hseat]
    · refine ⟨rest, hrest, ?_, ?_, (List.nodup_cons.1 hnd).2, ?_⟩
      · cases rest with
        | nil =>
          have : nd.next = none := hrest
          simp [this]
        | cons k rest2 =>
          have : nd.next = some k := hrest.1
          simp only [this]
          rw [ht, List.getLast?_cons_cons]
          simp
      · simp only [hs, List.length_cons]
        push_cast
        ring
      · rw [hlcons]
        rfl
    · intro hcontra
      rw [hlcons] at hcontra
      cases hcontra

/-- A freshly constructed queue represents the empty list. -/
theorem reprQ_empty : ReprQ SeatQueue.empty [] :=
  ⟨[], rfl, rfl, rfl, List.nodup_nil, rfl⟩

/-- Refinement: running any call sequence from a valid state never
faults, collects exactly the results the abstract list model collects,
and ends in a state representing the model's final list. -/
theorem runAux_spec {q : SeatQueue} {l : List String} (h : ReprQ q l) (ops : List Op) :
    ∃ q2, runAux q ops = some (q2, (modelRun l ops).2) ∧
      ReprQ q2 (modelRun l ops).1 := by
  induction ops generalizing q l with
  | nil => exact ⟨q, rfl, h⟩
  | cons op rest ih =>
    cases op with
    | add s =>
      obtain ⟨qa, ha, hra, _⟩ := addSeat_spec h s
      obtain ⟨q2, hrun, hr2⟩ := ih hra
      refine ⟨q2, ?_, by simpa [modelRun] using hr2⟩
      simp [runAux, ha, hrun, modelRun]
    | reserve =>
      obtain ⟨qa, ha, hra, _⟩ := reserveSeat_spec h
      obtain ⟨q2, hrun, hr2⟩ := ih hra
      refine ⟨q2, ?_, by simpa [modelRun] using hr2⟩
      simp [runAux, ha, hrun, modelRun]

/-- The model of a pure block of appends: everything lands at the back
in order and no results are produced. -/
theorem modelRun_adds (l : List String) (ss : List String) :
    modelRun l (ss.map Op.add) = (l ++ ss, []) := by
  induction ss generalizing l with
  | nil => simp [modelRun]
  | cons s rest ih =>
    simp only [List.map_cons, modelRun]
    rw [ih]
    simp

/-- The model of draining: as many pops as there are elements return
exactly those elements, wrapped in `some`, in order. -/
theorem modelRun_reserves (l : List String) :
    modelRun l (List.replicate l.length Op.reserve) = ([], l.map some) := by
  induction l with
  | nil => simp [modelRun]
  | cons a rest ih =>
    simp only [List.length_cons, List.replicate_succ, modelRun]
    rw [List.tail_cons, ih]
    simp

/-- The model of one sequence followed by another. -/
theorem modelRun_append (l : List String) (ops1 ops2 : List Op) :
    modelRun l (ops1 ++ ops2) =
      ((modelRun (modelRun l ops1).1 ops2).1,
       (modelRun l ops1).2 ++ (modelRun (modelRun l ops1).1 ops2).2) := by
  induction ops1 generalizing l with
  | nil => simp [modelRun]
  | cons op rest ih =>
    cases op with
    | add s =>
      simp only [List.cons_append, modelRun, List.append_eq]
      rw [ih]
    | reserve =>
      simp only [List.cons_append, modelRun, List.append_eq]
      rw [ih]

/-- Number of `addSeat` calls in an operation sequence. -/
def countAdds (ops : List Op) : Nat :=
  (ops.filter fun op => match op with
    | Op.add _ => true
    | Op.reserve => false).length

/-- Number of successful (non-null) results among collected
`reserveSeat` results. -/
def countSome (rs : List (Option String)) : Nat :=
  (rs.filter Option.isSome).length

theorem countAdds_cons_add (s : String) (ops : List Op) :
    countAdds (Op.add s :: ops) = countAdds ops + 1 := by
  simp [countAdds, List.filter]

theorem countAdds_cons_reserve (ops : List Op) :
    countAdds (Op.reserve :: ops) = countAdds ops := by
  simp [countAdds, List.filter]

/-- Abstract count accounting: after any model run, the remaining
length plus the successful pops equals the initial length plus the
appends. -/
theorem modelRun_count (l : List String) (ops : List Op) :
    (modelRun l ops).1.length + countSome (modelRun l ops).2 =
      l.length + countAdds ops := by
  induction ops generalizing l with
  | nil => simp [modelRun, countAdds, countSome]
  | cons op rest ih =>
    cases op with
    | add s =>
      simp only [modelRun, countAdds_cons_add]
      rw [ih]
      simp
      omega
    | reserve =>
      cases l with
      | nil =>
        simp only [modelRun, countAdds_cons_reserve, List.tail_nil, List.head?_nil]
        have := ih ([] : List String)
        simp [countSome, List.filter] at this ⊢
        omega
      | cons a l2 =>
        simp only [modelRun, countAdds_cons_reserve, List.tail_cons, List.head?_cons]
        have := ih l2
        simp [countSome, List.filter] at this ⊢
        omega

/-- Follow `next` pointers `k` times starting from pointer `p`
(`none` absorbs: a null or dangling pointer stays null). -/
def stepN (nodes : List ListNode) : Option Nat → Nat → Option Nat
  | p, 0 => p
  | none, _ + 1 => none
  | some i, k + 1 =>
      match nodes[i]? with
      | none => none
      | some nd => stepN nodes nd.next k

/-- Following `next` from the start of a chain `k` times lands on the
`k`-th visited index (or null past the end). -/
theorem chain_stepN {nodes : List ListNode} {p : Option Nat} {is : List Nat}
    (h : isChain nodes p is) : ∀ k, stepN nodes p k = is[k]? := by
  induction is generalizing p with
  | nil =>
    intro k
    have hp : p = none := h
    subst hp
    cases k with
    | zero => rfl
    | succ k2 => rfl
  | cons j rest ih =>
    intro k
    obtain ⟨hp, nd, hnd, hrest⟩ := h
    subst hp
    cases k with
    | zero => simp [stepN]
    | succ k2 =>
      rw [List.getElem?_cons_succ]
      show stepN nodes (some j) (k2 + 1) = rest[k2]?
      unfold stepN
      rw [hnd]
      exact ih hrest k2

/-! ### Concrete states used to instantiate hypotheses -/

/-- A queue holding the single seat `"A1"`: the state produced by
`addSeat("A1")` on a fresh queue. -/
def q1ex : SeatQueue :=
  { nodes := [{ seatId := "A1", next := none }],
    head := some 0, tail := some 0, size := 1 }

/-- `q1ex` validly represents the one-element list `["A1"]`. -/
theorem reprQ_q1ex : ReprQ q1ex ["A1"] :=
  ⟨[0], ⟨rfl, { seatId := "A1", next := none }, rfl, rfl⟩, rfl, rfl,
    List.nodup_singleton 0, rfl⟩

/-! ### Claim theorems -/

/-- C1.  FIFO law: appending `s1, …, sn` on a fresh queue and then
calling `reserveSeat` n times returns `s1, …, sn` in exactly that
order (each wrapped in `some`), never reordering and never skipping. -/
theorem fifo_law (ss : List String) :
    ∃ q, run (ss.map Op.add ++ List.replicate ss.length Op.reserve) =
      some (q, ss.map some) := by
  obtain ⟨q2, hrun, _⟩ := runAux_spec reprQ_empty
    (ss.map Op.add ++ List.replicate ss.length Op.reserve)
  refine ⟨q2, ?_⟩
  have hm : (modelRun []
      (ss.map Op.add ++ List.replicate ss.length Op.reserve)).2 = ss.map some := by
    rw [modelRun_append, modelRun_adds]
    simp [modelRun_reserves]
  rw [← hm]
  exact hrun

/-- C2.  Reserve on empty is a non-error no-op: whenever `head` is
absent (count 0), `reserveSeat` returns the explicit `none` with the
state literally unchanged, repeated calls keep returning `none` with
the state still unchanged, and `getAvailableCount` stays 0. -/
theorem reserve_empty_noop (q : SeatQueue) (h : q.head = none) (h0 : q.size = 0) :
    q.reserveSeat = some (none, q) ∧
    (∀ n, runAux q (List.replicate n Op.reserve) = some (q, List.replicate n none)) ∧
    q.getAvailableCount = 0 := by
  refine ⟨?_, ?_, h0⟩
  · simp [SeatQueue.reserveSeat, h]
  · intro n
    induction n with
    | zero => rfl
    | succ k ih =>
      simp [List.replicate_succ, runAux, SeatQueue.reserveSeat, h, ih]

/-- Witness for C2 at a freshly constructed queue, with five repeated
`reserveSeat` calls. -/
theorem reserve_empty_noop_w :
    SeatQueue.empty.reserveSeat = some (none, SeatQueue.empty) ∧
    runAux SeatQueue.empty (List.replicate 5 Op.reserve) =
      some (SeatQueue.empty, List.replicate 5 none) ∧
    SeatQueue.empty.getAvailableCount = 0 := by
  obtain ⟨h1, h2, h3⟩ := reserve_empty_noop SeatQueue.empty rfl rfl
  exact ⟨h1, h2 5, h3⟩

/-- C3.  Count accounting: after any finite call sequence on a fresh
queue, `getAvailableCount` equals the number of `addSeat` calls minus
the number of `reserveSeat` calls that returned a non-null result. -/
theorem count_accounting (ops : List Op) :
    ∃ q rs, run ops = some (q, rs) ∧
      q.getAvailableCount = (countAdds ops : Int) - (countSome rs : Int) := by
  obtain ⟨q2, hrun, hr⟩ := runAux_spec reprQ_empty ops
  obtain ⟨is, hc, ht, hs, hnd, hl⟩ := hr
  refine ⟨q2, (modelRun [] ops).2, hrun, ?_⟩
  have hcount := modelRun_count [] ops
  have hlen : (modelRun [] ops).1.length = is.length := by rw [hl]; simp
  show q2.size = (countAdds ops : Int) - (countSome (modelRun [] ops).2 : Int)
  rw [hs]
  simp only [List.length_nil] at hcount
  omega

/-- C4.  Structural invariants in every reachable state: `size = 0`
iff `head` is absent, and then `tail` is absent too; a present `tail`
points at a record whose `next` is null (the last record); and
following `next` from `head` reaches `tail` in exactly `size - 1`
steps along a duplicate-free (hence acyclic) chain of `size` nodes. -/
theorem structural_invariants (ops : List Op) :
    ∃ q rs, run ops = some (q, rs) ∧
      (q.size = 0 ↔ q.head = none) ∧
      (q.head = none → q.tail = none) ∧
      (∀ t, q.tail = some t → ∃ nd, q.nodes[t]? = some nd ∧ nd.next = none) ∧
      (q.head ≠ none → stepN q.nodes q.head (q.size.toNat - 1) = q.tail) ∧
      (∃ is, isChain q.nodes q.head is ∧ is.Nodup ∧ q.size = (is.length : Int)) := by
  obtain ⟨q2, hrun, hr⟩ := runAux_spec reprQ_empty ops
  obtain ⟨is, hc, ht, hs, hnd, hl⟩ := hr
  have hhead := chain_head hc
  have hnil_of_zero : q2.size = 0 → is = [] := by
    intro h0
    rw [h0] at hs
    have : is.length = 0 := by exact_mod_cast hs.symm
    exact List.length_eq_zero.1 this
  have hnil_of_none : q2.head = none → is = [] := by
    intro hnone
    rw [hnone] at hhead
    exact List.head?_eq_none_iff.1 hhead.symm
  refine ⟨q2, (modelRun [] ops).2, hrun, ?_, ?_, ?_, ?_, is, hc, hnd, hs⟩
  · constructor
    · intro h0
      rw [hhead, hnil_of_zero h0]
      rfl
    · intro hnone
      rw [hs, hnil_of_none hnone]
      rfl
  · intro hnone
    rw [ht, hnil_of_none hnone]
    rfl
  · intro t htt
    rw [ht] at htt
    exact chain_last_next hc htt
  · intro hne
    have hlen : q2.size.toNat = is.length := by rw [hs]; exact Int.toNat_natCast _
    rw [chain_stepN hc, hlen, ← List.getLast?_eq_getElem?, ht]

/-- C5.  Append semantics and totality: on every valid queue state and
every identifier (duplicates included), `addSeat` succeeds, creates a
fresh record holding the identifier with null `next`, makes it both
`head` and `tail` when the queue was empty and otherwise links it
after the old `tail` (whose `next` was null) keeping `head`, makes it
the new `tail`, and increments `size` by exactly one. -/
theorem addSeat_total (q : SeatQueue) (l : List String) (s : String) (h : ReprQ q l) :
    ∃ q2, q.addSeat s = some q2 ∧ ReprQ q2 (l ++ [s]) ∧
      q2.size = q.size + 1 ∧
      q2.tail = some q.nodes.length ∧
      q2.nodes[q.nodes.length]? = some { seatId := s, next := none } ∧
      (q.head = none → q2.head = some q.nodes.length) ∧
      (∀ hh, q.head = some hh → q2.head = some hh ∧
        ∃ t tn, q.tail = some t ∧ q.nodes[t]? = some tn ∧ tn.next = none ∧
          q2.nodes[t]? = some { seatId := tn.seatId, next := some q.nodes.length }) :=
  addSeat_spec h s

/-- Witness for C5 on the one-seat queue `q1ex`. -/
theorem addSeat_total_w : ∃ q2, q1ex.addSeat "A2" = some q2 := by
  obtain ⟨q2, h1, _⟩ := addSeat_total q1ex ["A1"] "A2" reprQ_q1ex
  exact ⟨q2, h1⟩

/-- C6.  Interleaving scenario: `addSeat("B1"); reserveSeat();
addSeat("B2"); addSeat("B3"); reserveSeat()` on a fresh queue makes
the second `reserveSeat` return `"B2"` (results are `"B1"` then
`"B2"`) — head/tail bookkeeping survives an append after the queue has
been drained to empty. -/
theorem interleaving_scenario :
    (run [Op.add "B1", Op.reserve, Op.add "B2", Op.add "B3", Op.reserve]).map
      Prod.snd = some [some "B1", some "B2"] := by
  decide

/-- C7.  Duplicates are preserved as independent entries: appending an
identifier already present still succeeds and adds a distinct entry at
the back (size grows by one), and concretely `addSeat("A1")` twice
then `reserveSeat()` twice returns `"A1"` then `"A1"` again. -/
theorem duplicates_preserved (q : SeatQueue) (l : List String) (s : String)
    (h : ReprQ q l) (_hmem : s ∈ l) :
    (∃ q2, q.addSeat s = some q2 ∧ ReprQ q2 (l ++ [s]) ∧ q2.size = q.size + 1) ∧
    (run [Op.add "A1", Op.add "A1", Op.reserve, Op.reserve]).map Prod.snd =
      some [some "A1", some "A1"] := by
  refine ⟨?_, by decide⟩
  obtain ⟨q2, h1, h2, h3, _⟩ := addSeat_spec h s
  exact ⟨q2, h1, h2, h3⟩

/-- Witness for C7: appending `"A1"` to the queue already holding
`"A1"`. -/
theorem duplicates_preserved_w :
    (∃ q2, q1ex.addSeat "A1" = some q2 ∧ ReprQ q2 (["A1"] ++ ["A1"]) ∧
      q2.size = q1ex.size + 1) ∧
    (run [Op.add "A1", Op.add "A1", Op.reserve, Op.reserve]).map Prod.snd =
      some [some "A1", some "A1"] :=
  duplicates_preserved q1ex ["A1"] "A1" reprQ_q1ex (by decide)

/-- C8.  `getAvailableCount` is a pure query: it returns the stored
`size` field, leaves the state unchanged (the embedding is
state-passing and no updated state is produced), and depends on
nothing but `size` — two states agreeing on `size` alone get the same
answer, so the linked chain is never walked. -/
theorem getAvailableCount_pure (q r : SeatQueue) (h : q.size = r.size) :
    q.getAvailableCount = q.size ∧ q.getAvailableCount = r.getAvailableCount :=
  ⟨rfl, h⟩

/-- Witness for C8: two states with equal `size` but different node
stores, heads and tails. -/
theorem getAvailableCount_pure_w :
    q1ex.getAvailableCount = q1ex.size ∧
    q1ex.getAvailableCount = SeatQueue.getAvailableCount
      { nodes := [], head := none, tail := none, size := 1 } :=
  getAvailableCount_pure q1ex
    { nodes := [], head := none, tail := none, size := 1 } rfl

/-- C9.  The empty string is a valid seat identifier distinct from the
empty-indicator: after `addSeat("")` on a fresh queue, `reserveSeat`
returns the present value `some ""`, which is not the
empty-indicator `none`. -/
theorem empty_string_seat :
    (run [Op.add "", Op.reserve]).map Prod.snd = some [some ""] ∧
    (some "" : Option String) ≠ none := by
  exact ⟨by decide, by decide⟩

/-- C10.  The count is never negative: every reachable state has
`getAvailableCount ≥ 0`. -/
theorem count_nonneg (ops : List Op) :
    ∃ q rs, run ops = some (q, rs) ∧ 0 ≤ q.getAvailableCount := by
  obtain ⟨q2, hrun, hr⟩ := runAux_spec reprQ_empty ops
  obtain ⟨is, _, _, hs, _, _⟩ := hr
  refine ⟨q2, (modelRun [] ops).2, hrun, ?_⟩
  show (0 : Int) ≤ q2.size
  rw [hs]
  omega
